import Mathlib

/-!
Verification development for the react-native-sherpa-onnx-offline-tts
repository: a shallow embedding in Lean 4 of the streaming text-to-speech
pipeline (text segmentation, per-segment synthesis driving with
trailing-silence trimming, the ordered audio playback queue, and volume
telemetry), together with theorems checking the repository's specification
against it.

Strings are embedded as `List Char`; 32-bit float PCM samples are embedded
as exact rationals `ℚ` (silence thresholds such as 0.01 become `mkRat 1 100`);
platform collections (Swift `Array`, Kotlin `LinkedBlockingQueue`) become
Lean lists.
-/

namespace Sherpa

/-- Character class used by both platforms to separate words:
Swift `.whitespacesAndNewlines` / Kotlin regex `\s`. -/
def isWS (c : Char) : Bool := c.isWhitespace

/-- Splitting a string into its whitespace-separated words, dropping empty
components.  Embeds Swift
`text.components(separatedBy: .whitespacesAndNewlines).filter { !$0.isEmpty }`
(SherpaOnnxOfflineTts.swift line 145) and Kotlin
`text.split("\\s+".toRegex()).filter { it.isNotEmpty() }`
(TTSManagerModule.kt line 250): both return the maximal runs of
non-whitespace characters, computed here by a single structural pass from
the right (a non-whitespace character either starts a new word, when
followed by whitespace or the end, or extends the word that follows it). -/
def wordsOf : List Char → List (List Char)
  | [] => []
  | c :: cs =>
    if isWS c then wordsOf cs
    else
      match cs, wordsOf cs with
      | [], _ => [[c]]
      | d :: _, rest =>
        if isWS d then [c] :: rest
        else
          match rest with
          | [] => [[c]]
          | w :: ws => (c :: w) :: ws

/-- Joining words with a single space: Swift
`words[currentIndex..<endIndex].joined(separator: " ")` / Kotlin
`words.subList(currentIndex, endIndex).joinToString(" ")`. -/
def joinSp : List (List Char) → List Char
  | [] => []
  | [w] => w
  | w :: w' :: rest => w ++ ' ' :: joinSp (w' :: rest)

/-- Trimming leading and trailing whitespace: Swift
`trimmingCharacters(in: .whitespacesAndNewlines)` / Kotlin `trim()`. -/
def trimStr (l : List Char) : List Char :=
  ((l.dropWhile isWS).reverse.dropWhile isWS).reverse

/-- The prefix of a string up to and including the LAST occurrence of the
character `c`, if any.  Embeds Swift
`chunk.range(of: ".", options: .backwards)` followed by
`chunk[..<periodRange.upperBound]` (SherpaOnnxOfflineTts.swift lines
155-156), and Kotlin `chunk.lastIndexOf('.')` followed by
`chunk.substring(0, lastPeriod + 1)` (TTSManagerModule.kt lines 258-263). -/
def cutAfterLast (c : Char) : List Char → Option (List Char)
  | [] => none
  | x :: xs =>
    match cutAfterLast c xs with
    | some pre => some (x :: pre)
    | none => if x = c then some [x] else none

/-- One pass of the `splitText` while loop, working on the suffix of the
word list starting at `currentIndex` (advancing `currentIndex` by `n`
corresponds to dropping `n` words).  Embeds the loop body of
SherpaOnnxOfflineTts.swift lines 149-171 / TTSManagerModule.kt lines
254-277: take a window of up to `maxWords` words, prefer to cut at the
last period of the window, then at the last comma, else force a cut at
`maxWords` words.  The advance in the period/comma branch is the number of
whitespace-separated components of the produced (trimmed, single-spaced)
sentence, which is exactly `(wordsOf sentence).length`.  The source's
`while` loop is rendered with explicit fuel; the fuel-sufficiency theorem
(claim C10) shows `words.length` rounds always suffice when
`maxWords ≥ 1`. -/
def splitTextGo (maxWords : Nat) : Nat → List (List Char) → List (List Char)
  | 0, _ => []
  | _ + 1, [] => []
  | fuel + 1, w :: ws =>
    let chunk := joinSp ((w :: ws).take maxWords)
    match cutAfterLast '.' chunk with
    | some pre =>
      let sentence := trimStr pre
      sentence :: splitTextGo maxWords fuel ((w :: ws).drop (wordsOf sentence).length)
    | none =>
      match cutAfterLast ',' chunk with
      | some pre =>
        let sentence := trimStr pre
        sentence :: splitTextGo maxWords fuel ((w :: ws).drop (wordsOf sentence).length)
      | none =>
        trimStr chunk :: splitTextGo maxWords fuel ((w :: ws).drop maxWords)

/-- `splitText(text, maxWords)`: SherpaOnnxOfflineTts.swift lines 143-174 /
TTSManagerModule.kt lines 248-280. -/
def splitText (text : List Char) (maxWords : Nat) : List (List Char) :=
  let words := wordsOf text
  splitTextGo maxWords words.length words

/-! ## Synthesis driver (TTSManager.generate / generateAndPlay)

The external synthesis engine (`tts?.generate(text:sid:speed:)`) is a
black-box collaborator; it is embedded as a parameter
`engine : List Char → Option (List ℚ)` returning the generated PCM
samples, `none` when the engine produces no result.  The speaker id and
speed only flow through to the engine unchanged, so they are absorbed
into `engine`. -/

/-- The index (largest) of the last sample whose absolute value strictly
exceeds the threshold, if any.  Embeds the backward scans
`for i in stride(from: n - 1, through: 0, by: -1) { if abs(samples[i]) > threshold { ...; break } }`
of SherpaOnnxOfflineTts.swift lines 97-102. -/
def lastExceeding (threshold : ℚ) : List ℚ → Option Nat
  | [] => none
  | s :: rest =>
    match lastExceeding threshold rest with
    | some i => some (i + 1)
    | none => if threshold < |s| then some 0 else none

/-- Trailing-silence trim of the LAST chunk in `generate`
(SherpaOnnxOfflineTts.swift lines 92-109): find the last sample exceeding
the 0.01 silence threshold, keep everything up to it (all `n` samples when
every sample is silent), then re-extend by a ~10 ms buffer
(`Int(sampleRate * 0.01)` samples) capped at the original count.  Returns
the resulting sample count. -/
def trimCount (sampleRate : ℚ) (samples : List ℚ) : Nat :=
  let n := samples.length
  let cnt := match lastExceeding (mkRat 1 100) samples with
    | some i => i + 1
    | none => n
  min (cnt + (Rat.floor (sampleRate * mkRat 1 100)).toNat) n

/-- The two-pass "ultra aggressive" trim variant of `generate` found in the
alternative TTSManager.swift (unnamed part_003, lines 88-129), applied to
every chunk: first pass with threshold 0.002 over the whole chunk; when the
chunk is the final one AND significant audio was found, a second backward
pass with threshold 0.008 over at most the last 500 kept samples, then a
2 ms buffer; otherwise an 8 ms buffer.  Returns the resulting sample
count. -/
def trim3Count (sampleRate : ℚ) (isLast : Bool) (samples : List ℚ) : Nat :=
  let n := samples.length
  let fst := lastExceeding (mkRat 1 500) samples
  let cnt := match fst with
    | some i => i + 1
    | none => n
  if isLast && fst.isSome then
    let base := cnt - 500
    let point := match lastExceeding (mkRat 1 125) ((samples.take cnt).drop base) with
      | some j => base + j + 1
      | none => cnt
    min (point + (Rat.floor (sampleRate * mkRat 1 500)).toNat) n
  else
    min (cnt + (Rat.floor (sampleRate * mkRat 1 125)).toNat) n

/-- One `AudioChunkGenerated` event body
(SherpaOnnxOfflineTts.swift lines 120-125): the serialized samples (the
base64 encoding is an injective serialization of the trimmed sample
prefix, embedded here as the sample list itself), the chunk index, the
total number of chunks and the sample rate (`Int(self.sampleRate)`). -/
structure ChunkEvent where
  chunk : List ℚ
  index : Nat
  total : Nat
  sampleRate : ℤ
deriving DecidableEq, Repr

/-- Settlement of a bridged promise. -/
inductive Outcome where
  /-- `resolver(["success": ..., "totalChunks": ...])`. -/
  | resolved (success : Bool) (totalChunks : Nat)
  /-- `resolver("Audio generated and played successfully")`. -/
  | resolvedMsg (msg : List Char)
  /-- `rejecter(code, detail, nil)`. -/
  | rejected (code : List Char) (detail : List Char)
deriving DecidableEq, Repr

/-- Observable behaviour of one `generate` call: the ordered
`AudioChunkGenerated` events, the ordered list of texts passed to the
synthesis engine, and how the promise settles. -/
structure GenResult where
  events : List ChunkEvent
  calls : List (List Char)
  outcome : Outcome
deriving DecidableEq, Repr

/-- `sentence.hasSuffix(".") ? sentence : "\(sentence)."`
(SherpaOnnxOfflineTts.swift line 79). -/
def proc (sentence : List Char) : List Char :=
  if sentence.getLast? = some '.' then sentence else sentence ++ ['.']

/-- The per-sentence loop of `generate`
(SherpaOnnxOfflineTts.swift lines 78-127): for each sentence in order,
append a period if needed, call the engine (rejecting with
GENERATION_ERROR naming the sentence and processing no further sentence
when it returns no audio), trim trailing silence on the last chunk only,
and emit one `AudioChunkGenerated` event; after the last sentence the
promise resolves with success and the total chunk count. -/
def genLoop (engine : List Char → Option (List ℚ)) (sampleRate : ℚ)
    (total : Nat) : Nat → List (List Char) → GenResult
  | _, [] => ⟨[], [], .resolved true total⟩
  | idx, sentence :: rest =>
    let processed := proc sentence
    match engine processed with
    | none => ⟨[], [processed], .rejected "GENERATION_ERROR".data processed⟩
    | some samples =>
      let cnt := if idx = total - 1 then trimCount sampleRate samples else samples.length
      let ev : ChunkEvent := ⟨samples.take cnt, idx, total, Rat.floor sampleRate⟩
      let r := genLoop engine sampleRate total (idx + 1) rest
      ⟨ev :: r.events, processed :: r.calls, r.outcome⟩

/-- `generate(text, sid, speed)` in stream-mode
(SherpaOnnxOfflineTts.swift lines 65-134): trim the text, reject blank
input with EMPTY_TEXT before any engine work, split into sentences with
`maxWords = 15`, then run the per-sentence loop. -/
def generate (engine : List Char → Option (List ℚ)) (sampleRate : ℚ)
    (text : List Char) : GenResult :=
  let trimmed := trimStr text
  if trimmed = [] then
    ⟨[], [], .rejected "EMPTY_TEXT".data "Input text is empty".data⟩
  else
    let sentences := splitText trimmed 15
    genLoop engine sampleRate sentences.length 0 sentences

/-- Observable behaviour of one `generateAndPlay` call: the chunks handed
to the audio player's queue in order, the texts passed to the engine, and
how the promise settles. -/
structure PlayResult where
  enqueued : List (List ℚ)
  calls : List (List Char)
  outcome : Outcome
deriving DecidableEq, Repr

/-- The per-sentence loop of `generateAndPlay`
(SherpaOnnxOfflineTts.swift lines 55-58 with `generateAudio`, lines
177-189; TTSManagerModule.kt lines 227-230 with `generateAudio`, lines
282-294): each sentence is processed and handed to the engine; when the
engine returns no audio, `generateAudio` only logs and RETURNS, so the
sentence is skipped and the loop continues; otherwise the chunk is
enqueued on the audio player. -/
def playLoop (engine : List Char → Option (List ℚ)) :
    List (List Char) → List (List ℚ) × List (List Char)
  | [] => ([], [])
  | sentence :: rest =>
    let processed := proc sentence
    let r := playLoop engine rest
    match engine processed with
    | some audio => (audio :: r.1, processed :: r.2)
    | none => (r.1, processed :: r.2)

/-- `generateAndPlay(text, sid, speed)`
(SherpaOnnxOfflineTts.swift lines 43-61): trim the text, reject blank
input with EMPTY_TEXT, split into sentences with `maxWords = 15`, run the
play loop over all sentences, then resolve with a success message
(regardless of per-sentence engine failures, which are only logged). -/
def generateAndPlay (engine : List Char → Option (List ℚ))
    (text : List Char) : PlayResult :=
  let trimmed := trimStr text
  if trimmed = [] then
    ⟨[], [], .rejected "EMPTY_TEXT".data "Input text is empty".data⟩
  else
    let sentences := splitText trimmed 15
    let r := playLoop engine sentences
    ⟨r.1, r.2, .resolvedMsg "Audio generated and played successfully".data⟩

/-! ## Audio player (AudioPlayer.kt, unnamed part_004)

The real-time player is embedded as a labelled transition system whose
atomic actions are the synchronized/volatile-guarded blocks of the code:
`enqueueAudioData`, one iteration of the playback thread loop
(`audioQueue.take()` … `write` … `maybeSendCompletion`), one firing of
`volumeUpdateRunnable`, and `stopPlayer`.  Observations are recorded in
ghost logs: `written` (chunks passed to `audioTrack.write`, in order),
`enqLog` (chunks passed to `enqueueAudioData`, in order), and `trace`
(the interleaved sequence of enqueue events and volume reports delivered
to the delegate). -/

/-- Trace events: a volume report delivered to the delegate (the value -1
is the idle sentinel), or a call to `enqueueAudioData`. -/
inductive Ev where
  | rep (v : ℚ)
  | enq
deriving DecidableEq, Repr

/-- `computePeak` (part_004 lines 129-136): maximum absolute sample value. -/
def computePeak (data : List ℚ) : ℚ :=
  data.foldl (fun maxVal s => max maxVal |s|) 0

/-- `processAccumulatedSamples` (part_004 lines 112-121): while the
accumulation buffer holds at least `samplesPerChunk` samples, remove one
window from its front and push `peak * 0.42` onto the volumes queue.
Returns the remaining buffer and the pushed volumes in order.  The
source's `while` loop is rendered with fuel; the caller passes the buffer
length, which bounds the iteration count whenever `samplesPerChunk ≥ 1`. -/
def processAcc (samplesPerChunk : Nat) : Nat → List ℚ → List ℚ × List ℚ
  | 0, buf => (buf, [])
  | fuel + 1, buf =>
    if samplesPerChunk ≤ buf.length then
      let chunkSamples := buf.take samplesPerChunk
      let volume := computePeak chunkSamples * mkRat 21 50
      let r := processAcc samplesPerChunk fuel (buf.drop samplesPerChunk)
      (r.1, volume :: r.2)
    else (buf, [])

/-- State of one `AudioPlayer` session together with its ghost logs. -/
structure PlayerState where
  /-- `audioQueue : LinkedBlockingQueue<FloatArray>` (front = next taken). -/
  audioQueue : List (List ℚ)
  /-- `accumulationBuffer : MutableList<Float>`. -/
  accBuf : List ℚ
  /-- `volumesQueue : LinkedBlockingQueue<Float>` (front = next polled). -/
  volumes : List ℚ
  /-- `sentCompletion` flag. -/
  sent : Bool
  /-- `isRunning` flag. -/
  running : Bool
  /-- Ghost log: chunks written to the output device, in order. -/
  written : List (List ℚ)
  /-- Ghost log: chunks enqueued, in order. -/
  enqLog : List (List ℚ)
  /-- Ghost log: delegate events, in order. -/
  trace : List Ev
deriving DecidableEq, Repr

/-- The state right after `start()`: empty queues, `sentCompletion = false`,
`isRunning = true`. -/
def initPS : PlayerState := ⟨[], [], [], false, true, [], [], []⟩

/-- `enqueueAudioData(samples, sr)` (part_004 lines 123-127): reset the
completion flag and append the chunk to the queue (the sample-rate check
is a precondition here: one session keeps a single fixed rate). -/
def enqueueStep (c : List ℚ) (s : PlayerState) : PlayerState :=
  { s with sent := false,
           audioQueue := s.audioQueue ++ [c],
           enqLog := s.enqLog ++ [c],
           trace := s.trace ++ [.enq] }

/-- One iteration of the playback thread loop (part_004 lines 95-107):
take the next chunk from the queue (blocked — no step — when the queue is
empty or the player is stopped), append it to the accumulation buffer,
extract full volume windows, write the chunk to the device, then
`maybeSendCompletion` (part_004 lines 139-144): when the completion was
not yet sent and both the queue and the accumulation buffer are empty,
report the -1 idle sentinel once and set the flag. -/
def workerStep (samplesPerChunk : Nat) (s : PlayerState) : Option PlayerState :=
  if s.running then
    match s.audioQueue with
    | [] => none
    | c :: rest =>
      let buf := s.accBuf ++ c
      let r := processAcc samplesPerChunk buf.length buf
      let s1 : PlayerState :=
        { s with audioQueue := rest,
                 accBuf := r.1,
                 volumes := s.volumes ++ r.2,
                 written := s.written ++ [c] }
      if !s1.sent && rest.isEmpty && r.1.isEmpty then
        some { s1 with sent := true, trace := s1.trace ++ [.rep (-1)] }
      else some s1
  else none

/-- One firing of `volumeUpdateRunnable` (part_004 lines 34-49): when the
player is stopped the runnable returns without reporting (no step);
otherwise it reports the next pending volume from the volumes queue, or,
when none is pending and the completion sentinel has not been sent,
reports 0. -/
def tickStep (s : PlayerState) : Option PlayerState :=
  if s.running then
    match s.volumes with
    | v :: vs => some { s with volumes := vs, trace := s.trace ++ [.rep v] }
    | [] =>
      if !s.sent then some { s with trace := s.trace ++ [.rep 0] }
      else some s
  else none

/-- `stopPlayer()` (part_004 lines 146-163): stop and join the playback
thread and cancel the volume runnable (afterwards neither a worker step
nor a tick is enabled), clear the accumulation buffer and the volumes
queue — but NOT `audioQueue`, which is left untouched — and post one
final -1 volume report. -/
def stopPlayer (s : PlayerState) : PlayerState :=
  { s with running := false,
           accBuf := [],
           volumes := [],
           trace := s.trace ++ [.rep (-1)] }

/-- The actions of the player transition system. -/
inductive PAction where
  | enqueue (c : List ℚ)
  | worker
  | tick
  | stop
deriving DecidableEq, Repr

/-- Apply one action; `none` when the action is not enabled in `s`. -/
def applyAction (samplesPerChunk : Nat) : PAction → PlayerState → Option PlayerState
  | .enqueue c, s => some (enqueueStep c s)
  | .worker, s => workerStep samplesPerChunk s
  | .tick, s => tickStep s
  | .stop, s => some (stopPlayer s)

/-- Run a sequence of actions from a state; `none` when some action in the
sequence is not enabled where it occurs. -/
def runP (samplesPerChunk : Nat) : List PAction → PlayerState → Option PlayerState
  | [], s => some s
  | a :: rest, s =>
    match applyAction samplesPerChunk a s with
    | some s' => runP samplesPerChunk rest s'
    | none => none

/-- Left-to-right check of a delegate trace mirroring the `sentCompletion`
discipline: the flag is set by a -1 sentinel report, cleared by an
enqueue, and a second sentinel while the flag is set is a violation
(`none`).  Returns the final flag value otherwise. -/
def chkFrom : Bool → List Ev → Option Bool
  | flag, [] => some flag
  | _, .enq :: t => chkFrom false t
  | flag, .rep v :: t =>
    if v = -1 then (if flag then none else chkFrom true t)
    else chkFrom flag t

/-- A trace never contains two -1 sentinel reports without an enqueue
strictly between them. -/
def NoDoubleSentinel (t : List Ev) : Prop :=
  ∀ t1 t2 t3, t = t1 ++ Ev.rep (-1) :: t2 ++ Ev.rep (-1) :: t3 → Ev.enq ∈ t2

/-! ## Lemmas about words, joining and trimming -/

theorem wordsOf_nil : wordsOf [] = [] := rfl

theorem wordsOf_cons_ws {c : Char} (h : isWS c = true) (cs : List Char) :
    wordsOf (c :: cs) = wordsOf cs := by
  simp [wordsOf, h]

theorem wordsOf_singleton {c : Char} (h : isWS c = false) :
    wordsOf [c] = [[c]] := by
  simp [wordsOf, h]

theorem wordsOf_cons_cons_ws {c d : Char} (hc : isWS c = false)
    (hd : isWS d = true) (cs : List Char) :
    wordsOf (c :: d :: cs) = [c] :: wordsOf (d :: cs) := by
  simp [wordsOf, hc, hd]

theorem wordsOf_cons_cons_nonws {c d : Char} (hc : isWS c = false)
    (hd : isWS d = false) (cs : List Char) {w : List Char} {ws : List (List Char)}
    (h : wordsOf (d :: cs) = w :: ws) :
    wordsOf (c :: d :: cs) = (c :: w) :: ws := by
  conv_lhs => rw [wordsOf.eq_def]
  simp only [hc, Bool.false_eq_true, if_false]
  rw [h]
  simp [hd]

theorem wordsOf_head_nonws :
    ∀ (cs : List Char) (d : Char), isWS d = false →
      ∃ w ws, wordsOf (d :: cs) = w :: ws := by
  intro cs
  induction cs with
  | nil => exact fun d hd => ⟨[d], [], wordsOf_singleton hd⟩
  | cons e cs' ih =>
    intro d hd
    by_cases he : isWS e = true
    · exact ⟨[d], wordsOf (e :: cs'), wordsOf_cons_cons_ws hd he cs'⟩
    · obtain ⟨w, ws, hw⟩ := ih e (Bool.not_eq_true _ ▸ he)
      exact ⟨d :: w, ws, wordsOf_cons_cons_nonws hd (Bool.not_eq_true _ ▸ he) cs' hw⟩

theorem wordsOf_single :
    ∀ (w : List Char), w ≠ [] → (∀ c ∈ w, isWS c = false) → wordsOf w = [w] := by
  intro w
  induction w with
  | nil => exact fun h _ => absurd rfl h
  | cons c cs ih =>
    intro _ hns
    cases cs with
    | nil => exact wordsOf_singleton (hns c (by simp))
    | cons d cs' =>
      have hw := ih (by simp) (fun x hx => hns x (List.mem_cons_of_mem _ hx))
      exact wordsOf_cons_cons_nonws (hns c (by simp)) (hns d (by simp)) cs' hw

theorem wordsOf_word_space :
    ∀ (w t : List Char), w ≠ [] → (∀ c ∈ w, isWS c = false) →
      wordsOf (w ++ ' ' :: t) = w :: wordsOf t := by
  intro w
  induction w with
  | nil => exact fun t h _ => absurd rfl h
  | cons c cs ih =>
    intro t _ hns
    cases cs with
    | nil =>
      rw [List.cons_append, List.nil_append,
        wordsOf_cons_cons_ws (hns c (by simp)) (by decide) t,
        wordsOf_cons_ws (by decide) t]
    | cons d cs' =>
      have hw := ih t (by simp) (fun x hx => hns x (List.mem_cons_of_mem _ hx))
      rw [List.cons_append]
      exact wordsOf_cons_cons_nonws (hns c (by simp)) (hns d (by simp))
        (cs' ++ ' ' :: t) (by simpa using hw)

theorem wordsOf_all_ws :
    ∀ (t : List Char), (∀ x ∈ t, isWS x = true) → wordsOf t = [] := by
  intro t
  induction t with
  | nil => exact fun _ => rfl
  | cons c cs ih =>
    intro h
    rw [wordsOf_cons_ws (h c (by simp)) cs]
    exact ih (fun x hx => h x (List.mem_cons_of_mem _ hx))

theorem wordsOf_append_allws :
    ∀ (a t : List Char), (∀ x ∈ t, isWS x = true) →
      wordsOf (a ++ t) = wordsOf a := by
  intro a
  induction a with
  | nil => exact fun t ht => wordsOf_all_ws t ht
  | cons c a' ih =>
    intro t ht
    by_cases hc : isWS c = true
    · rw [List.cons_append, wordsOf_cons_ws hc, wordsOf_cons_ws hc]
      exact ih t ht
    · replace hc := Bool.not_eq_true _ ▸ hc
      cases a' with
      | nil =>
        cases t with
        | nil => simp
        | cons d t' =>
          simp only [List.cons_append, List.nil_append]
          rw [wordsOf_cons_cons_ws hc (ht d (by simp)) t',
            wordsOf_cons_ws (ht d (by simp)) t',
            wordsOf_all_ws t' (fun x hx => ht x (List.mem_cons_of_mem _ hx)),
            wordsOf_singleton hc]
      | cons d a'' =>
        have hiha := ih t ht
        by_cases hd : isWS d = true
        · rw [List.cons_append, List.cons_append,
            wordsOf_cons_cons_ws hc hd (a'' ++ t),
            wordsOf_cons_cons_ws hc hd a'']
          rw [List.cons_append] at hiha
          rw [hiha]
        · replace hd := Bool.not_eq_true _ ▸ hd
          obtain ⟨w, ws, hw⟩ := wordsOf_head_nonws a'' d hd
          have hw' : wordsOf (d :: (a'' ++ t)) = w :: ws := by
            rw [List.cons_append] at hiha
            rw [hiha, hw]
          rw [List.cons_append, List.cons_append,
            wordsOf_cons_cons_nonws hc hd (a'' ++ t) hw',
            wordsOf_cons_cons_nonws hc hd a'' hw]

theorem wordsOf_dropWhile_ws :
    ∀ (l : List Char), wordsOf (l.dropWhile isWS) = wordsOf l := by
  intro l
  induction l with
  | nil => rfl
  | cons c cs ih =>
    by_cases hc : isWS c = true
    · rw [List.dropWhile_cons_of_pos (by simpa using hc), ih,
        wordsOf_cons_ws hc]
    · rw [List.dropWhile_cons_of_neg (by simpa using hc)]

theorem wordsOf_trimStr (l : List Char) : wordsOf (trimStr l) = wordsOf l := by
  unfold trimStr
  have h2 : l.dropWhile isWS =
      ((l.dropWhile isWS).reverse.dropWhile isWS).reverse ++
        ((l.dropWhile isWS).reverse.takeWhile isWS).reverse := by
    rw [← List.reverse_append, List.takeWhile_append_dropWhile, List.reverse_reverse]
  calc wordsOf ((l.dropWhile isWS).reverse.dropWhile isWS).reverse
      = wordsOf (((l.dropWhile isWS).reverse.dropWhile isWS).reverse ++
          ((l.dropWhile isWS).reverse.takeWhile isWS).reverse) :=
        (wordsOf_append_allws _ _
          (fun x hx => List.mem_takeWhile_imp (List.mem_reverse.mp hx))).symm
    _ = wordsOf (l.dropWhile isWS) := by rw [← h2]
    _ = wordsOf l := wordsOf_dropWhile_ws l

theorem wordsOf_spec :
    ∀ (l : List Char), ∀ w ∈ wordsOf l, w ≠ [] ∧ ∀ c ∈ w, isWS c = false := by
  intro l
  induction l with
  | nil => simp [wordsOf]
  | cons c cs ih =>
    by_cases hc : isWS c = true
    · rw [wordsOf_cons_ws hc]; exact ih
    · replace hc := Bool.not_eq_true _ ▸ hc
      cases cs with
      | nil =>
        rw [wordsOf_singleton hc]
        intro w hw
        rw [List.mem_singleton] at hw
        subst hw
        exact ⟨by simp, by intro x hx; rw [List.mem_singleton] at hx; subst hx; exact hc⟩
      | cons d cs' =>
        by_cases hd : isWS d = true
        · rw [wordsOf_cons_cons_ws hc hd cs']
          intro w hw
          rcases List.mem_cons.mp hw with h | h
          · subst h
            exact ⟨by simp, by intro x hx; rw [List.mem_singleton] at hx; subst hx; exact hc⟩
          · exact ih w h
        · replace hd := Bool.not_eq_true _ ▸ hd
          obtain ⟨w0, ws0, hw0⟩ := wordsOf_head_nonws cs' d hd
          rw [wordsOf_cons_cons_nonws hc hd cs' hw0]
          intro w hw
          rcases List.mem_cons.mp hw with h | h
          · subst h
            have h0 := ih w0 (by rw [hw0]; simp)
            refine ⟨by simp, ?_⟩
            intro x hx
            rcases List.mem_cons.mp hx with h | h
            · subst h; exact hc
            · exact h0.2 x h
          · exact ih w (by rw [hw0]; exact List.mem_cons_of_mem _ h)

theorem wordsOf_joinSp :
    ∀ (ws : List (List Char)),
      (∀ w ∈ ws, w ≠ [] ∧ ∀ c ∈ w, isWS c = false) →
      wordsOf (joinSp ws) = ws := by
  intro ws
  induction ws with
  | nil => exact fun _ => rfl
  | cons w rest ih =>
    intro h
    cases rest with
    | nil =>
      exact wordsOf_single w (h w (by simp)).1 (h w (by simp)).2
    | cons w' rest' =>
      have : joinSp (w :: w' :: rest') = w ++ ' ' :: joinSp (w' :: rest') := rfl
      rw [this, wordsOf_word_space w _ (h w (by simp)).1 (h w (by simp)).2,
        ih (fun x hx => h x (List.mem_cons_of_mem _ hx))]

/-! ## Lemmas about cutting at the last occurrence of a character -/

theorem joinSp_cons_cons (w x : List Char) (xs : List (List Char)) :
    joinSp (w :: x :: xs) = w ++ ' ' :: joinSp (x :: xs) := rfl

theorem cutAfterLast_append (c : Char) :
    ∀ (a b : List Char),
      cutAfterLast c (a ++ b) =
        match cutAfterLast c b with
        | some pre => some (a ++ pre)
        | none => cutAfterLast c a := by
  intro a b
  induction a with
  | nil =>
    simp only [List.nil_append]
    cases h : cutAfterLast c b <;> simp [h, cutAfterLast]
  | cons x a' ih =>
    have heq : ∀ t : List Char, cutAfterLast c (x :: t) =
        match cutAfterLast c t with
        | some pre => some (x :: pre)
        | none => if x = c then some [x] else none := fun _ => rfl
    cases hb : cutAfterLast c b with
    | some pre =>
      simp only [hb] at ih
      rw [List.cons_append, heq, ih]
      simp
    | none =>
      simp only [hb] at ih
      rw [List.cons_append, heq, ih, heq]

theorem cutAfterLast_eq_none (c : Char) :
    ∀ (l : List Char), cutAfterLast c l = none ↔ c ∉ l := by
  intro l
  induction l with
  | nil => simp [cutAfterLast]
  | cons x xs ih =>
    simp only [cutAfterLast, List.mem_cons]
    cases h : cutAfterLast c xs with
    | some pre =>
      rw [h] at ih
      have hmem : c ∈ xs := by
        by_contra hcm
        exact Option.noConfusion (ih.mpr hcm)
      simp [hmem]
    | none =>
      rw [h] at ih
      have hnm : c ∉ xs := ih.mp rfl
      by_cases hxc : x = c
      · subst hxc; simp
      · simp [hxc, hnm, Ne.symm hxc]

theorem cutAfterLast_of_not_mem_dropLast (c : Char) :
    ∀ (l : List Char), c ∉ l.dropLast →
      cutAfterLast c l = none ∨ cutAfterLast c l = some l := by
  intro l
  induction l with
  | nil => exact fun _ => Or.inl rfl
  | cons x xs ih =>
    intro h
    cases xs with
    | nil =>
      by_cases hxc : x = c
      · subst hxc; right; simp [cutAfterLast]
      · left; simp [cutAfterLast, hxc]
    | cons y xs' =>
      rw [List.dropLast_cons₂, List.mem_cons] at h
      push_neg at h
      have heq : cutAfterLast c (x :: y :: xs') =
          match cutAfterLast c (y :: xs') with
          | some pre => some (x :: pre)
          | none => if x = c then some [x] else none := rfl
      rcases ih h.2 with h0 | h0
      · rw [heq, h0]
        left
        simp [Ne.symm h.1]
      · rw [heq, h0]
        right
        rfl

theorem cutAfterLast_some_mem (c : Char) :
    ∀ (l pre : List Char), cutAfterLast c l = some pre → c ∈ pre := by
  intro l
  induction l with
  | nil => intro pre h; exact Option.noConfusion h
  | cons x xs ih =>
    intro pre h
    simp only [cutAfterLast] at h
    cases h0 : cutAfterLast c xs with
    | some p =>
      rw [h0] at h
      obtain rfl : x :: p = pre := Option.some.inj h
      exact List.mem_cons_of_mem _ (ih p h0)
    | none =>
      rw [h0] at h
      by_cases hxc : x = c
      · subst hxc
        simp only [if_true] at h
        obtain rfl : [x] = pre := Option.some.inj h
        simp
      · rw [if_neg hxc] at h
        exact Option.noConfusion h

/-- Characterization of cutting a single-space-joined word list at the last
occurrence of a punctuation character `c`, when `c` only ever occurs as the
last character of a word: either no word contains `c`, or the cut keeps
exactly the first `j` words for some `1 ≤ j ≤ length`. -/
theorem cutAfterLast_joinSp (c : Char) (hsp : c ≠ ' ') :
    ∀ (ws : List (List Char)),
      (∀ w ∈ ws, c ∉ w.dropLast) →
      cutAfterLast c (joinSp ws) = none ∨
      ∃ j, 1 ≤ j ∧ j ≤ ws.length ∧
        cutAfterLast c (joinSp ws) = some (joinSp (ws.take j)) := by
  intro ws
  induction ws with
  | nil => exact fun _ => Or.inl rfl
  | cons w rest ih =>
    intro h
    cases rest with
    | nil =>
      rcases cutAfterLast_of_not_mem_dropLast c w (h w (by simp)) with h0 | h0
      · exact Or.inl h0
      · exact Or.inr ⟨1, Nat.le_refl 1, by simp, by simpa [joinSp] using h0⟩
    | cons w' rest' =>
      rw [joinSp_cons_cons, cutAfterLast_append c w (' ' :: joinSp (w' :: rest'))]
      have heq : cutAfterLast c (' ' :: joinSp (w' :: rest')) =
          match cutAfterLast c (joinSp (w' :: rest')) with
          | some pre => some (' ' :: pre)
          | none => if ' ' = c then some [' '] else none := rfl
      rcases ih (fun x hx => h x (List.mem_cons_of_mem _ hx)) with h0 | ⟨j, hj1, hj2, h0⟩
      · rw [show cutAfterLast c (' ' :: joinSp (w' :: rest')) = none from by
          rw [heq, h0]; simp [Ne.symm hsp]]
        rcases cutAfterLast_of_not_mem_dropLast c w (h w (by simp)) with h1 | h1
        · exact Or.inl h1
        · exact Or.inr ⟨1, Nat.le_refl 1, by simp, by simpa [joinSp] using h1⟩
      · rw [show cutAfterLast c (' ' :: joinSp (w' :: rest')) =
            some (' ' :: joinSp ((w' :: rest').take j)) from by
          rw [heq, h0]]
        refine Or.inr ⟨j + 1, by omega, by simpa using Nat.succ_le_succ hj2, ?_⟩
        obtain ⟨x, xs, hx⟩ : ∃ x xs, (w' :: rest').take j = x :: xs := by
          cases j with
          | zero => omega
          | succ j' => exact ⟨w', rest'.take j', by simp⟩
        simp only [List.take_succ_cons, hx, joinSp_cons_cons]

/-! ## Lemmas about splitTextGo -/

theorem splitTextGo_nil (maxWords : Nat) :
    ∀ fuel, splitTextGo maxWords fuel [] = [] := by
  intro fuel
  cases fuel <;> rfl

theorem wordsOf_ne_nil_of_mem_nonws :
    ∀ (l : List Char) (d : Char), d ∈ l → isWS d = false → wordsOf l ≠ [] := by
  intro l
  induction l with
  | nil => simp
  | cons c cs ih =>
    intro d hd hdw
    by_cases hc : isWS c = true
    · rw [wordsOf_cons_ws hc]
      rcases List.mem_cons.mp hd with rfl | h
      · rw [hc] at hdw; exact Bool.noConfusion hdw
      · exact ih d h hdw
    · obtain ⟨w, ws, hw⟩ := wordsOf_head_nonws cs c (Bool.not_eq_true _ ▸ hc)
      rw [hw]; simp

/-- The one-step equation of `splitTextGo` in the non-trivial case. -/
theorem splitTextGo_cons (maxWords fuel : Nat) (w : List Char)
    (ws : List (List Char)) :
    splitTextGo maxWords (fuel + 1) (w :: ws) =
      match cutAfterLast '.' (joinSp ((w :: ws).take maxWords)) with
      | some pre =>
        trimStr pre ::
          splitTextGo maxWords fuel ((w :: ws).drop (wordsOf (trimStr pre)).length)
      | none =>
        match cutAfterLast ',' (joinSp ((w :: ws).take maxWords)) with
        | some pre =>
          trimStr pre ::
            splitTextGo maxWords fuel ((w :: ws).drop (wordsOf (trimStr pre)).length)
        | none =>
          trimStr (joinSp ((w :: ws).take maxWords)) ::
            splitTextGo maxWords fuel ((w :: ws).drop maxWords) := rfl

/-- When the window cut by a (non-space) punctuation character that only
occurs word-finally succeeds, the produced sentence consists of exactly
the first `j` words of the remaining list, where `j` is its own word
count, with `1 ≤ j ≤ maxWords`. -/
theorem cut_segment (c : Char) (hsp : c ≠ ' ')
    (remaining : List (List Char)) (maxWords : Nat)
    (H : ∀ w ∈ remaining, w ≠ [] ∧ (∀ d ∈ w, isWS d = false) ∧ c ∉ w.dropLast)
    (pre : List Char)
    (hcut : cutAfterLast c (joinSp (remaining.take maxWords)) = some pre) :
    1 ≤ (wordsOf (trimStr pre)).length ∧
    (wordsOf (trimStr pre)).length ≤ maxWords ∧
    wordsOf (trimStr pre) = remaining.take (wordsOf (trimStr pre)).length := by
  have Hwin : ∀ w ∈ remaining.take maxWords,
      w ≠ [] ∧ (∀ d ∈ w, isWS d = false) ∧ c ∉ w.dropLast :=
    fun w hw => H w (List.take_subset _ _ hw)
  rcases cutAfterLast_joinSp c hsp (remaining.take maxWords)
      (fun w hw => (Hwin w hw).2.2) with h0 | ⟨j, hj1, hj2, h0⟩
  · rw [h0] at hcut; exact Option.noConfusion hcut
  · rw [h0] at hcut
    obtain rfl : joinSp ((remaining.take maxWords).take j) = pre :=
      Option.some.inj hcut
    rw [List.length_take] at hj2
    have hjm : j ≤ maxWords := le_trans hj2 (min_le_left _ _)
    have hjr : j ≤ remaining.length := le_trans hj2 (min_le_right _ _)
    have hww : wordsOf (trimStr (joinSp ((remaining.take maxWords).take j)))
        = (remaining.take maxWords).take j := by
      rw [wordsOf_trimStr,
        wordsOf_joinSp _ (fun w hw =>
          ⟨(Hwin w (List.take_subset _ _ hw)).1,
           (Hwin w (List.take_subset _ _ hw)).2.1⟩)]
    have htt : (remaining.take maxWords).take j = remaining.take j := by
      rw [List.take_take, Nat.min_eq_left hjm]
    have hlenj : (remaining.take j).length = j := by
      rw [List.length_take, Nat.min_eq_left hjr]
    rw [hww, htt, hlenj]
    exact ⟨hj1, hjm, rfl⟩

/-- Core of claim C2 (amended): when every period and every comma of the
input occurs only as the last character of its word, the segments produced
by the `splitText` loop partition the word list exactly. -/
theorem splitTextGo_join (maxWords : Nat) (hm : 1 ≤ maxWords) :
    ∀ (fuel : Nat) (remaining : List (List Char)),
      remaining.length ≤ fuel →
      (∀ w ∈ remaining, w ≠ [] ∧ (∀ d ∈ w, isWS d = false) ∧
        '.' ∉ w.dropLast ∧ ',' ∉ w.dropLast) →
      ((splitTextGo maxWords fuel remaining).map wordsOf).flatten = remaining := by
  intro fuel
  induction fuel with
  | zero =>
    intro remaining h _
    rw [Nat.le_zero, List.length_eq_zero] at h
    subst h
    rfl
  | succ fuel ih =>
    intro remaining hlen H
    cases remaining with
    | nil => rfl
    | cons w ws =>
      rw [splitTextGo_cons]
      rcases hdot : cutAfterLast '.' (joinSp ((w :: ws).take maxWords)) with _ | pre
      · rcases hcom : cutAfterLast ',' (joinSp ((w :: ws).take maxWords)) with _ | pre
        · simp only [List.map_cons, List.flatten_cons]
          have hseg : wordsOf (trimStr (joinSp ((w :: ws).take maxWords)))
              = (w :: ws).take maxWords := by
            rw [wordsOf_trimStr,
              wordsOf_joinSp _ (fun x hx =>
                ⟨(H x (List.take_subset _ _ hx)).1,
                 (H x (List.take_subset _ _ hx)).2.1⟩)]
          have hd : ((w :: ws).drop maxWords).length ≤ fuel := by
            rw [List.length_drop]
            simp only [List.length_cons] at hlen ⊢
            omega
          rw [hseg, ih ((w :: ws).drop maxWords) hd
            (fun x hx => H x (List.drop_subset _ _ hx)),
            List.take_append_drop]
        · obtain ⟨hj1, hjm, hseg⟩ := cut_segment ',' (by decide) (w :: ws) maxWords
            (fun x hx => ⟨(H x hx).1, (H x hx).2.1, (H x hx).2.2.2⟩) pre hcom
          simp only [List.map_cons, List.flatten_cons]
          set j := (wordsOf (trimStr pre)).length with hjdef
          have hd : ((w :: ws).drop j).length ≤ fuel := by
            rw [List.length_drop]
            simp only [List.length_cons] at hlen ⊢
            omega
          rw [hseg, ih ((w :: ws).drop j) hd
            (fun x hx => H x (List.drop_subset _ _ hx)),
            List.take_append_drop]
      · obtain ⟨hj1, hjm, hseg⟩ := cut_segment '.' (by decide) (w :: ws) maxWords
          (fun x hx => ⟨(H x hx).1, (H x hx).2.1, (H x hx).2.2.1⟩) pre hdot
        simp only [List.map_cons, List.flatten_cons]
        set j := (wordsOf (trimStr pre)).length with hjdef
        have hd : ((w :: ws).drop j).length ≤ fuel := by
          rw [List.length_drop]
          simp only [List.length_cons] at hlen ⊢
          omega
        rw [hseg, ih ((w :: ws).drop j) hd
          (fun x hx => H x (List.drop_subset _ _ hx)),
          List.take_append_drop]

/-- Core of claim C10: the `splitText` loop is insensitive to the fuel as
soon as the fuel covers the number of remaining words — every iteration
consumes at least one word when `maxWords ≥ 1`, because a produced
sentence always contains the punctuation character it was cut at (hence at
least one word), and the forced-cut branch advances by `maxWords`. -/
theorem splitTextGo_fuel (maxWords : Nat) (hm : 1 ≤ maxWords) :
    ∀ (n : Nat) (remaining : List (List Char)) (f g : Nat),
      remaining.length ≤ n → remaining.length ≤ f → remaining.length ≤ g →
      splitTextGo maxWords f remaining = splitTextGo maxWords g remaining := by
  intro n
  induction n with
  | zero =>
    intro remaining f g hn _ _
    rw [Nat.le_zero, List.length_eq_zero] at hn
    subst hn
    rw [splitTextGo_nil, splitTextGo_nil]
  | succ n ih =>
    intro remaining f g hn hf hg
    cases remaining with
    | nil => rw [splitTextGo_nil, splitTextGo_nil]
    | cons w ws =>
      obtain ⟨f', rfl⟩ : ∃ f', f = f' + 1 := by
        cases f with
        | zero => exact absurd hf (by simp)
        | succ f' => exact ⟨f', rfl⟩
      obtain ⟨g', rfl⟩ : ∃ g', g = g' + 1 := by
        cases g with
        | zero => exact absurd hg (by simp)
        | succ g' => exact ⟨g', rfl⟩
      simp only [List.length_cons] at hn hf hg
      rw [splitTextGo_cons, splitTextGo_cons]
      rcases hdot : cutAfterLast '.' (joinSp ((w :: ws).take maxWords)) with _ | pre
      · rcases hcom : cutAfterLast ',' (joinSp ((w :: ws).take maxWords)) with _ | pre
        · dsimp only
          congr 1
          exact ih ((w :: ws).drop maxWords) f' g'
            (by rw [List.length_drop]; simp only [List.length_cons]; omega)
            (by rw [List.length_drop]; simp only [List.length_cons]; omega)
            (by rw [List.length_drop]; simp only [List.length_cons]; omega)
        · dsimp only
          have h1 : 1 ≤ (wordsOf (trimStr pre)).length := by
            have hne : wordsOf (trimStr pre) ≠ [] := by
              rw [wordsOf_trimStr]
              exact wordsOf_ne_nil_of_mem_nonws pre ','
                (cutAfterLast_some_mem ',' _ pre hcom) (by decide)
            exact Nat.succ_le_of_lt (List.length_pos.mpr hne)
          congr 1
          exact ih ((w :: ws).drop (wordsOf (trimStr pre)).length) f' g'
            (by rw [List.length_drop]; simp only [List.length_cons]; omega)
            (by rw [List.length_drop]; simp only [List.length_cons]; omega)
            (by rw [List.length_drop]; simp only [List.length_cons]; omega)
      · dsimp only
        have h1 : 1 ≤ (wordsOf (trimStr pre)).length := by
          have hne : wordsOf (trimStr pre) ≠ [] := by
            rw [wordsOf_trimStr]
            exact wordsOf_ne_nil_of_mem_nonws pre '.'
              (cutAfterLast_some_mem '.' _ pre hdot) (by decide)
          exact Nat.succ_le_of_lt (List.length_pos.mpr hne)
        congr 1
        exact ih ((w :: ws).drop (wordsOf (trimStr pre)).length) f' g'
          (by rw [List.length_drop]; simp only [List.length_cons]; omega)
          (by rw [List.length_drop]; simp only [List.length_cons]; omega)
          (by rw [List.length_drop]; simp only [List.length_cons]; omega)

/-! ## Lemmas about the generate / generateAndPlay loops -/

theorem genLoop_success (engine : List Char → Option (List ℚ)) (sr : ℚ)
    (he : ∀ s, (engine s).isSome) :
    ∀ (l : List (List Char)) (idx total : Nat),
      (genLoop engine sr total idx l).outcome = .resolved true total ∧
      (genLoop engine sr total idx l).events.map ChunkEvent.index
        = List.range' idx l.length ∧
      (genLoop engine sr total idx l).events.map ChunkEvent.total
        = List.replicate l.length total ∧
      (genLoop engine sr total idx l).events.map ChunkEvent.sampleRate
        = List.replicate l.length (Rat.floor sr) ∧
      (genLoop engine sr total idx l).calls = l.map proc := by
  intro l
  induction l with
  | nil => exact fun idx total => ⟨rfl, rfl, rfl, rfl, rfl⟩
  | cons s rest ih =>
    intro idx total
    obtain ⟨samples, hs⟩ := Option.isSome_iff_exists.mp (he (proc s))
    obtain ⟨h1, h2, h3, h4, h5⟩ := ih (idx + 1) total
    simp only [genLoop, hs]
    refine ⟨h1, ?_, ?_, ?_, ?_⟩ <;>
      simp [h2, h3, h4, h5, List.range'_succ, List.replicate_succ]

theorem genLoop_fail (engine : List Char → Option (List ℚ)) (sr : ℚ) :
    ∀ (pre : List (List Char)) (bad : List Char) (post : List (List Char))
      (idx total : Nat),
      (∀ s ∈ pre, (engine (proc s)).isSome) →
      engine (proc bad) = none →
      (genLoop engine sr total idx (pre ++ bad :: post)).outcome
        = .rejected "GENERATION_ERROR".data (proc bad) ∧
      (genLoop engine sr total idx (pre ++ bad :: post)).calls
        = pre.map proc ++ [proc bad] ∧
      (genLoop engine sr total idx (pre ++ bad :: post)).events.length
        = pre.length := by
  intro pre
  induction pre with
  | nil =>
    intro bad post idx total _ hbad
    simp [genLoop, hbad]
  | cons s pre' ih =>
    intro bad post idx total hgood hbad
    obtain ⟨samples, hs⟩ :=
      Option.isSome_iff_exists.mp (hgood s (by simp))
    obtain ⟨h1, h2, h3⟩ := ih bad post (idx + 1) total
      (fun x hx => hgood x (List.mem_cons_of_mem _ hx)) hbad
    simp only [List.cons_append, genLoop, hs]
    exact ⟨h1, by simp [h2], by simp [h3]⟩

theorem playLoop_eq (engine : List Char → Option (List ℚ)) :
    ∀ l, playLoop engine l = ((l.map proc).filterMap engine, l.map proc) := by
  intro l
  induction l with
  | nil => rfl
  | cons s rest ih =>
    simp only [playLoop, ih, List.map_cons, List.filterMap_cons]
    cases h : engine (proc s) <;> simp [h]

/-! ## Lemmas about the player transition system -/

/-- FIFO invariant: the chunks already written, followed by the chunks
still queued, are exactly the chunks enqueued, in order. -/
theorem runP_fifo (spc : Nat) :
    ∀ (acts : List PAction) (s s' : PlayerState),
      s.written ++ s.audioQueue = s.enqLog →
      runP spc acts s = some s' →
      s'.written ++ s'.audioQueue = s'.enqLog := by
  intro acts
  induction acts with
  | nil =>
    intro s s' h hr
    obtain rfl := Option.some.inj hr
    exact h
  | cons a rest ih =>
    intro s s' h hr
    cases ha : applyAction spc a s with
    | none => rw [runP, ha] at hr; exact Option.noConfusion hr
    | some s1 =>
      rw [runP, ha] at hr
      refine ih s1 s' ?_ hr
      cases a with
      | enqueue c =>
        obtain rfl := Option.some.inj ha
        simp only [enqueueStep]
        rw [← List.append_assoc, h]
      | worker =>
        rw [show applyAction spc .worker s = workerStep spc s from rfl,
          workerStep] at ha
        by_cases hrun : s.running = true
        · rw [if_pos hrun] at ha
          rcases hq : s.audioQueue with _ | ⟨c, rest'⟩ <;> rw [hq] at ha
          · exact Option.noConfusion ha
          · dsimp only at ha
            rw [hq] at h
            split_ifs at ha <;>
            · obtain rfl := Option.some.inj ha
              simp only []
              rw [List.append_assoc, List.singleton_append, h]
        · rw [if_neg hrun] at ha; exact Option.noConfusion ha
      | tick =>
        rw [show applyAction spc .tick s = tickStep s from rfl, tickStep] at ha
        by_cases hrun : s.running = true
        · rw [if_pos hrun] at ha
          rcases hv : s.volumes with _ | ⟨v, vs⟩ <;> rw [hv] at ha
          · split_ifs at ha <;> (obtain rfl := Option.some.inj ha; exact h)
          · obtain rfl := Option.some.inj ha; exact h
        · rw [if_neg hrun] at ha; exact Option.noConfusion ha
      | stop =>
        obtain rfl := Option.some.inj ha
        exact h

theorem chkFrom_append :
    ∀ (t1 t2 : List Ev) (f : Bool),
      chkFrom f (t1 ++ t2) = (chkFrom f t1).bind (fun f' => chkFrom f' t2) := by
  intro t1
  induction t1 with
  | nil => intro t2 f; rfl
  | cons e t ih =>
    intro t2 f
    cases e with
    | enq => simp only [List.cons_append, chkFrom]; exact ih t2 false
    | rep v =>
      simp only [List.cons_append, chkFrom]
      by_cases hv : v = -1
      · rw [if_pos hv, if_pos hv]
        by_cases hf : f = true
        · rw [if_pos hf, if_pos hf]; rfl
        · rw [if_neg hf, if_neg hf]; exact ih t2 true
      · rw [if_neg hv, if_neg hv]; exact ih t2 f

theorem foldl_peak_nonneg :
    ∀ (l : List ℚ) (a : ℚ), 0 ≤ a →
      0 ≤ l.foldl (fun maxVal s => max maxVal |s|) a := by
  intro l
  induction l with
  | nil => exact fun a h => h
  | cons x xs ih =>
    intro a h
    exact ih _ (le_trans h (le_max_left _ _))

theorem foldl_peak_le_one :
    ∀ (l : List ℚ) (a : ℚ), a ≤ 1 → (∀ s ∈ l, |s| ≤ 1) →
      l.foldl (fun maxVal s => max maxVal |s|) a ≤ 1 := by
  intro l
  induction l with
  | nil => exact fun a h _ => h
  | cons x xs ih =>
    intro a h hb
    exact ih _ (max_le h (hb x (by simp)))
      (fun s hs => hb s (List.mem_cons_of_mem _ hs))

theorem computePeak_nonneg (data : List ℚ) : 0 ≤ computePeak data :=
  foldl_peak_nonneg data 0 (le_refl 0)

theorem computePeak_le_one (data : List ℚ) (h : ∀ s ∈ data, |s| ≤ 1) :
    computePeak data ≤ 1 :=
  foldl_peak_le_one data 0 (by norm_num) h

theorem volume_bounds (data : List ℚ) (h : ∀ s ∈ data, |s| ≤ 1) :
    0 ≤ computePeak data * mkRat 21 50 ∧ computePeak data * mkRat 21 50 ≤ 1 := by
  have h0 : (0:ℚ) ≤ mkRat 21 50 := by decide
  have h1 : (mkRat 21 50 : ℚ) ≤ 1 := by decide
  constructor
  · exact mul_nonneg (computePeak_nonneg data) h0
  · calc computePeak data * mkRat 21 50 ≤ 1 * 1 :=
        mul_le_mul (computePeak_le_one data h) h1 h0 (by norm_num)
    _ = 1 := by norm_num

theorem processAcc_bounds (spc : Nat) :
    ∀ (fuel : Nat) (buf : List ℚ),
      (∀ x ∈ buf, |x| ≤ 1) →
      (∀ x ∈ (processAcc spc fuel buf).1, |x| ≤ 1) ∧
      (∀ v ∈ (processAcc spc fuel buf).2, 0 ≤ v ∧ v ≤ 1) := by
  intro fuel
  induction fuel with
  | zero => exact fun buf h => ⟨h, by simp [processAcc]⟩
  | succ fuel ih =>
    intro buf h
    by_cases hc : spc ≤ buf.length
    · have hdrop : ∀ x ∈ buf.drop spc, |x| ≤ 1 :=
        fun x hx => h x (List.drop_subset _ _ hx)
      have htake : ∀ x ∈ buf.take spc, |x| ≤ 1 :=
        fun x hx => h x (List.take_subset _ _ hx)
      obtain ⟨ih1, ih2⟩ := ih (buf.drop spc) hdrop
      simp only [processAcc, if_pos hc]
      refine ⟨ih1, ?_⟩
      intro v hv
      rcases List.mem_cons.mp hv with rfl | hv'
      · exact volume_bounds _ htake
      · exact ih2 v hv'
    · simp only [processAcc, if_neg hc]
      exact ⟨h, by simp⟩

/-- Every -1 sentinel report in the trace has an enqueue somewhere before
it. -/
def SentinelPrecededByEnq (t : List Ev) : Prop :=
  ∀ t1 t2, t = t1 ++ Ev.rep (-1) :: t2 → Ev.enq ∈ t1

theorem chkFrom_bridge :
    ∀ (t : List Ev) (f : Bool), (chkFrom f t).isSome →
      (f = true → SentinelPrecededByEnq t) ∧ NoDoubleSentinel t := by
  intro t
  induction t with
  | nil =>
    intro f _
    constructor
    · intro _ t1 t2 h
      rcases t1 with _ | ⟨x, t1'⟩ <;> simp at h
    · intro t1 t2 t3 h
      rcases t1 with _ | ⟨x, t1'⟩ <;> simp at h
  | cons e t ih =>
    intro f hsome
    cases e with
    | enq =>
      rw [chkFrom] at hsome
      obtain ⟨_, ih2⟩ := ih false hsome
      constructor
      · intro _ t1 t2 h
        cases t1 with
        | nil =>
          rw [List.nil_append] at h
          injection h with h1 h2
          exact Ev.noConfusion h1
        | cons x t1' =>
          rw [List.cons_append] at h
          injection h with h1 h2
          rw [← h1]
          simp
      · intro t1 t2 t3 h
        cases t1 with
        | nil =>
          rw [List.nil_append] at h
          injection h with h1 h2
          exact Ev.noConfusion h1
        | cons x t1' =>
          rw [List.cons_append] at h
          injection h with h1 h2
          exact ih2 t1' t2 t3 h2
    | rep v =>
      rw [chkFrom] at hsome
      by_cases hv : v = -1
      · rw [if_pos hv] at hsome
        by_cases hf : f = true
        · rw [if_pos hf] at hsome
          exact absurd hsome (by simp)
        · rw [if_neg hf] at hsome
          obtain ⟨ih1, ih2⟩ := ih true hsome
          have hsp := ih1 rfl
          constructor
          · intro hf'; exact absurd hf' hf
          · intro t1 t2 t3 h
            cases t1 with
            | nil =>
              rw [List.nil_append] at h
              injection h with h1 h2
              exact hsp t2 t3 h2
            | cons x t1' =>
              rw [List.cons_append] at h
              injection h with h1 h2
              exact ih2 t1' t2 t3 h2
      · rw [if_neg hv] at hsome
        obtain ⟨ih1, ih2⟩ := ih f hsome
        constructor
        · intro hf t1 t2 h
          cases t1 with
          | nil =>
            rw [List.nil_append] at h
            injection h with h1 h2
            injection h1 with h1'
            exact absurd h1' hv
          | cons x t1' =>
            rw [List.cons_append] at h
            injection h with h1 h2
            exact List.mem_cons_of_mem _ (ih1 hf t1' t2 h2)
        · intro t1 t2 t3 h
          cases t1 with
          | nil =>
            rw [List.nil_append] at h
            injection h with h1 h2
            injection h1 with h1'
            exact absurd h1' hv
          | cons x t1' =>
            rw [List.cons_append] at h
            injection h with h1 h2
            exact ih2 t1' t2 t3 h2

/-- Invariant for claim C6: the trace respects the completion-flag
discipline (final flag = `sentCompletion`), every pending volume and every
sample still flowing toward the volume computation is bounded, and every
trace event is an enqueue, the sentinel, or a report in [0,1]. -/
def C6Inv (s : PlayerState) : Prop :=
  chkFrom false s.trace = some s.sent ∧
  (∀ v ∈ s.volumes, 0 ≤ v ∧ v ≤ 1) ∧
  (∀ x ∈ s.accBuf, |x| ≤ 1) ∧
  (∀ c ∈ s.audioQueue, ∀ x ∈ c, |x| ≤ 1) ∧
  (∀ e ∈ s.trace, e = Ev.enq ∨ ∃ v, e = Ev.rep v ∧ (v = -1 ∨ (0 ≤ v ∧ v ≤ 1)))

theorem applyAction_c6 (spc : Nat) (a : PAction) (s s' : PlayerState)
    (hbound : ∀ c, a = PAction.enqueue c → ∀ x ∈ c, |x| ≤ 1)
    (hstop : a ≠ PAction.stop)
    (hinv : C6Inv s) (ha : applyAction spc a s = some s') : C6Inv s' := by
  obtain ⟨hchk, hvols, hbuf, hq, htr⟩ := hinv
  cases a with
  | enqueue c =>
    obtain rfl := Option.some.inj ha
    refine ⟨?_, hvols, hbuf, ?_, ?_⟩
    · show chkFrom false (s.trace ++ [Ev.enq]) = some false
      rw [chkFrom_append, hchk]
      rfl
    · intro ch hch
      rcases List.mem_append.mp hch with h | h
      · exact hq ch h
      · rw [List.mem_singleton] at h
        subst h
        exact hbound ch rfl
    · intro e he
      rcases List.mem_append.mp he with h | h
      · exact htr e h
      · rw [List.mem_singleton] at h
        exact Or.inl h
  | worker =>
    rw [show applyAction spc .worker s = workerStep spc s from rfl,
      workerStep] at ha
    by_cases hrun : s.running = true
    · rw [if_pos hrun] at ha
      rcases hqd : s.audioQueue with _ | ⟨c, rest⟩ <;> rw [hqd] at ha
      · exact Option.noConfusion ha
      · dsimp only at ha
        have hbufc : ∀ x ∈ s.accBuf ++ c, |x| ≤ 1 := by
          intro x hx
          rcases List.mem_append.mp hx with h | h
          · exact hbuf x h
          · exact hq c (by rw [hqd]; simp) x h
        obtain ⟨hpa1, hpa2⟩ :=
          processAcc_bounds spc (s.accBuf ++ c).length (s.accBuf ++ c) hbufc
        have hrest : ∀ ch ∈ rest, ∀ x ∈ ch, |x| ≤ 1 :=
          fun ch hch => hq ch (by rw [hqd]; exact List.mem_cons_of_mem _ hch)
        have hvols' : ∀ v ∈ s.volumes ++
            (processAcc spc (s.accBuf ++ c).length (s.accBuf ++ c)).2,
            0 ≤ v ∧ v ≤ 1 := by
          intro v hv
          rcases List.mem_append.mp hv with h | h
          · exact hvols v h
          · exact hpa2 v h
        split_ifs at ha with hcond
        · obtain rfl := Option.some.inj ha
          have hsent : s.sent = false := by
            simp only [Bool.and_eq_true, Bool.not_eq_true'] at hcond
            exact hcond.1.1
          refine ⟨?_, hvols', hpa1, hrest, ?_⟩
          · show chkFrom false (s.trace ++ [Ev.rep (-1)]) = some true
            rw [chkFrom_append, hchk]
            simp [chkFrom, hsent]
          · intro e he
            rcases List.mem_append.mp he with h | h
            · exact htr e h
            · rw [List.mem_singleton] at h
              exact Or.inr ⟨-1, h, Or.inl rfl⟩
        · obtain rfl := Option.some.inj ha
          exact ⟨hchk, hvols', hpa1, hrest, htr⟩
    · rw [if_neg hrun] at ha
      exact Option.noConfusion ha
  | tick =>
    rw [show applyAction spc .tick s = tickStep s from rfl, tickStep] at ha
    by_cases hrun : s.running = true
    · rw [if_pos hrun] at ha
      rcases hvd : s.volumes with _ | ⟨v, vs⟩ <;> rw [hvd] at ha
      · split_ifs at ha with hsent
        · obtain rfl := Option.some.inj ha
          have hs : s.sent = false := by
            simpa using hsent
          refine ⟨?_, by simp, hbuf, hq, ?_⟩
          · show chkFrom false (s.trace ++ [Ev.rep 0]) = some s.sent
            rw [chkFrom_append, hchk]
            simp [chkFrom]
          · intro e he
            rcases List.mem_append.mp he with h | h
            · exact htr e h
            · rw [List.mem_singleton] at h
              exact Or.inr ⟨0, h, Or.inr ⟨le_refl 0, by norm_num⟩⟩
        · obtain rfl := Option.some.inj ha
          exact ⟨hchk, hvols, hbuf, hq, htr⟩
      · obtain rfl := Option.some.inj ha
        have hv := hvols v (by rw [hvd]; simp)
        have hvne : v ≠ -1 := by
          intro h
          rw [h] at hv
          exact absurd hv.1 (by norm_num)
        refine ⟨?_, ?_, hbuf, hq, ?_⟩
        · show chkFrom false (s.trace ++ [Ev.rep v]) = some s.sent
          rw [chkFrom_append, hchk]
          simp [chkFrom, hvne]
        · exact fun u hu => hvols u (by rw [hvd]; exact List.mem_cons_of_mem _ hu)
        · intro e he
          rcases List.mem_append.mp he with h | h
          · exact htr e h
          · rw [List.mem_singleton] at h
            exact Or.inr ⟨v, h, Or.inr hv⟩
    · rw [if_neg hrun] at ha
      exact Option.noConfusion ha
  | stop => exact absurd rfl hstop

/-- C6 invariant along any stop-free run with bounded enqueued samples. -/
theorem runP_c6 (spc : Nat) :
    ∀ (acts : List PAction) (s s' : PlayerState),
      (∀ c, PAction.enqueue c ∈ acts → ∀ x ∈ c, |x| ≤ 1) →
      PAction.stop ∉ acts →
      C6Inv s → runP spc acts s = some s' → C6Inv s' := by
  intro acts
  induction acts with
  | nil =>
    intro s s' _ _ hinv hr
    obtain rfl := Option.some.inj hr
    exact hinv
  | cons a rest ih =>
    intro s s' hb hstop hinv hr
    cases ha : applyAction spc a s with
    | none => rw [runP, ha] at hr; exact Option.noConfusion hr
    | some s1 =>
      rw [runP, ha] at hr
      refine ih s1 s' (fun c hc => hb c (List.mem_cons_of_mem _ hc))
        (fun h => hstop (List.mem_cons_of_mem _ h)) ?_ hr
      exact applyAction_c6 spc a s s1
        (fun c hc => hb c (hc ▸ List.mem_cons_self _ _))
        (fun h => hstop (h ▸ List.mem_cons_self _ _)) hinv ha

theorem lastExceeding_none (threshold : ℚ) :
    ∀ (l : List ℚ), (∀ s ∈ l, |s| ≤ threshold) →
      lastExceeding threshold l = none := by
  intro l
  induction l with
  | nil => exact fun _ => rfl
  | cons s rest ih =>
    intro h
    simp only [lastExceeding]
    rw [ih (fun x hx => h x (List.mem_cons_of_mem _ hx))]
    simp [not_lt.mpr (h s (by simp))]

/-- Engine stub that succeeds on every input with a one-sample result;
used to instantiate hypotheses of the claim theorems on concrete inputs. -/
def engineOne : List Char → Option (List ℚ) := fun _ => some [1]

/-- Engine stub that fails on every sentence except `"b."`; exhibits a
synthesis failure on the first segment of the input `"a, b"`. -/
def engineSkip : List Char → Option (List ℚ) :=
  fun s => if s = "b.".data then some [1] else none

/-! ## Claim theorems -/

/-- Claim C1, counterexample: for the input "Hello world. This is a test."
with maxWords = 15, `splitText` returns ONE segment — the whole text — and
not the two segments claimed.  The whole text fits in a single 15-word
window and the algorithm cuts at the LAST period of the window, which is
the final character. -/
theorem c1_counterexample :
    splitText (trimStr "Hello world. This is a test.".data) 15
      = ["Hello world. This is a test.".data] ∧
    splitText (trimStr "Hello world. This is a test.".data) 15
      ≠ ["Hello world.".data, "This is a test.".data] := by
  exact ⟨by decide, by decide⟩

/-- Claim C1 (amended): for the input "Hello world. This is a test." with
maxWords = 15 the segmenter returns a single segment equal to the whole
text; consequently `generate` in stream-mode (when the engine returns
audio for it) emits exactly 1 AudioChunkGenerated event, with index 0,
total 1 and the sample-rate metadata, and resolves
{success: true, totalChunks: 1}. -/
theorem c1_amended (engine : List Char → Option (List ℚ)) (sr : ℚ)
    (samples : List ℚ)
    (h : engine "Hello world. This is a test.".data = some samples) :
    splitText (trimStr "Hello world. This is a test.".data) 15
      = ["Hello world. This is a test.".data] ∧
    (generate engine sr "Hello world. This is a test.".data).events
      = [⟨samples.take (trimCount sr samples), 0, 1, Rat.floor sr⟩] ∧
    (generate engine sr "Hello world. This is a test.".data).outcome
      = Outcome.resolved true 1 := by
  have htrim : trimStr "Hello world. This is a test.".data
      = "Hello world. This is a test.".data := by decide
  have hne : trimStr "Hello world. This is a test.".data ≠ [] := by decide
  have hsplit : splitText "Hello world. This is a test.".data 15
      = ["Hello world. This is a test.".data] := by decide
  have hproc : proc "Hello world. This is a test.".data
      = "Hello world. This is a test.".data := by decide
  refine ⟨by rw [htrim, hsplit], ?_, ?_⟩ <;>
    simp [generate, htrim, hne, hsplit, genLoop, hproc, h]

/-- Witness for C1 at a concrete engine and sample rate. -/
theorem c1_witness :
    engineOne "Hello world. This is a test.".data = some [1] ∧
    ((generate engineOne 22050 "Hello world. This is a test.".data).events
        = [⟨[(1:ℚ)].take (trimCount 22050 [1]), 0, 1, Rat.floor 22050⟩] ∧
      (generate engineOne 22050 "Hello world. This is a test.".data).outcome
        = Outcome.resolved true 1) :=
  ⟨rfl, (c1_amended engineOne 22050 [1] rfl).2⟩

/-- Claim C2, counterexample: for the one-word input "a.b", the segmenter
cuts inside the word at its period and drops the trailing "b": the words
of the produced segments are not the words of the input. -/
theorem c2_counterexample :
    ((splitText "a.b".data 15).map wordsOf).flatten ≠ wordsOf "a.b".data := by
  decide

/-- Claim C2 (amended): for every input text in which every period and
every comma occurs only as the last character of its word, and every
maxWords ≥ 1, the concatenation of the word sequences of the segments
returned by `splitText` equals the word sequence of the text: no word is
lost, duplicated, split apart, or reordered.  (Unrestricted, the claim is
false: a period or comma inside a word makes the cut split that word and
drop its remainder, see the counterexample.) -/
theorem c2_amended (text : List Char) (maxWords : Nat) (hm : 1 ≤ maxWords)
    (h : ∀ w ∈ wordsOf text, '.' ∉ w.dropLast ∧ ',' ∉ w.dropLast) :
    ((splitText text maxWords).map wordsOf).flatten = wordsOf text := by
  unfold splitText
  exact splitTextGo_join maxWords hm (wordsOf text).length (wordsOf text)
    (le_refl _)
    (fun w hw => ⟨(wordsOf_spec text w hw).1, (wordsOf_spec text w hw).2,
      (h w hw).1, (h w hw).2⟩)

/-- Witness for C2 on a concrete input with several segments. -/
theorem c2_witness :
    (1 ≤ 3 ∧ ∀ w ∈ wordsOf "Hello there. How are you".data,
      '.' ∉ w.dropLast ∧ ',' ∉ w.dropLast) ∧
    ((splitText "Hello there. How are you".data 3).map wordsOf).flatten
      = wordsOf "Hello there. How are you".data :=
  ⟨⟨by decide, by decide⟩,
    c2_amended "Hello there. How are you".data 3 (by decide) (by decide)⟩

/-- Claim C3: for every input text that is non-blank after trimming, when
the synthesis engine produces audio for every sentence, `generate` in
stream-mode emits exactly one chunk event per segment, in segment order,
carrying index `i` (0-based, ascending), `total = N` and the sample-rate
metadata, calls the engine once per segment in order, and resolves with
{success: true, totalChunks: N}. -/
theorem c3_stream_events (engine : List Char → Option (List ℚ)) (sr : ℚ)
    (text : List Char)
    (he : ∀ s, (engine s).isSome) (ht : trimStr text ≠ []) :
    (generate engine sr text).outcome
      = Outcome.resolved true (splitText (trimStr text) 15).length ∧
    (generate engine sr text).events.map ChunkEvent.index
      = List.range (splitText (trimStr text) 15).length ∧
    (generate engine sr text).events.map ChunkEvent.total
      = List.replicate (splitText (trimStr text) 15).length
          (splitText (trimStr text) 15).length ∧
    (generate engine sr text).events.map ChunkEvent.sampleRate
      = List.replicate (splitText (trimStr text) 15).length (Rat.floor sr) ∧
    (generate engine sr text).calls = (splitText (trimStr text) 15).map proc := by
  have h := genLoop_success engine sr he (splitText (trimStr text) 15) 0
    (splitText (trimStr text) 15).length
  rw [List.range_eq_range']
  simpa [generate, ht] using h

/-- Witness for C3 on the two-segment input "a, b". -/
theorem c3_witness :
    ((∀ s, (engineOne s).isSome) ∧ trimStr "a, b".data ≠ []) ∧
    ((generate engineOne 22050 "a, b".data).outcome
        = Outcome.resolved true (splitText (trimStr "a, b".data) 15).length ∧
      (generate engineOne 22050 "a, b".data).events.map ChunkEvent.index
        = List.range (splitText (trimStr "a, b".data) 15).length ∧
      (generate engineOne 22050 "a, b".data).events.map ChunkEvent.total
        = List.replicate (splitText (trimStr "a, b".data) 15).length
            (splitText (trimStr "a, b".data) 15).length ∧
      (generate engineOne 22050 "a, b".data).events.map ChunkEvent.sampleRate
        = List.replicate (splitText (trimStr "a, b".data) 15).length
            (Rat.floor 22050) ∧
      (generate engineOne 22050 "a, b".data).calls
        = (splitText (trimStr "a, b".data) 15).map proc) :=
  ⟨⟨fun _ => rfl, by decide⟩,
    c3_stream_events engineOne 22050 "a, b".data (fun _ => rfl) (by decide)⟩

/-- Claim C4, counterexample: for the input "a, b" (segments "a," and "b")
with an engine that fails on the first segment "a,." and succeeds on "b.",
`generateAndPlay` does NOT reject: it resolves with the success message,
and the later segment IS synthesized and enqueued — contradicting the
claim that the whole call rejects and no later segment is processed. -/
theorem c4_counterexample :
    splitText (trimStr "a, b".data) 15 = ["a,".data, "b".data] ∧
    engineSkip (proc "a,".data) = none ∧
    (generateAndPlay engineSkip "a, b".data).outcome
      = Outcome.resolvedMsg "Audio generated and played successfully".data ∧
    (generateAndPlay engineSkip "a, b".data).enqueued = [[1]] := by
  exact ⟨by decide, by decide, by decide, by decide⟩

/-- Claim C4 (amended): when the engine fails on a segment, `generate`
rejects with GENERATION_ERROR naming the (processed) failed segment, calls
the engine for no later segment, and has emitted exactly one event per
earlier segment; `generateAndPlay`, however, does NOT reject: the failed
segment is skipped (only logged), every sentence is still handed to the
engine in order, exactly the successful chunks are enqueued in order, and
the promise resolves with the success message. -/
theorem c4_amended (engine : List Char → Option (List ℚ)) (sr : ℚ)
    (text : List Char) (pre : List (List Char)) (bad : List Char)
    (post : List (List Char))
    (hsplit : splitText (trimStr text) 15 = pre ++ bad :: post)
    (hgood : ∀ s ∈ pre, (engine (proc s)).isSome)
    (hbad : engine (proc bad) = none) :
    (generate engine sr text).outcome
      = Outcome.rejected "GENERATION_ERROR".data (proc bad) ∧
    (generate engine sr text).calls = pre.map proc ++ [proc bad] ∧
    (generate engine sr text).events.length = pre.length ∧
    (generateAndPlay engine text).outcome
      = Outcome.resolvedMsg "Audio generated and played successfully".data ∧
    (generateAndPlay engine text).enqueued
      = ((pre ++ bad :: post).map proc).filterMap engine ∧
    (generateAndPlay engine text).calls = (pre ++ bad :: post).map proc := by
  have hne : trimStr text ≠ [] := by
    intro h0
    rw [h0] at hsplit
    have hempty : splitText ([] : List Char) 15 = [] := rfl
    rw [hempty] at hsplit
    rcases pre with _ | ⟨x, xs⟩ <;> simp at hsplit
  obtain ⟨g1, g2, g3⟩ := genLoop_fail engine sr pre bad post 0
    (pre ++ bad :: post).length hgood hbad
  have hgen : generate engine sr text
      = genLoop engine sr (splitText (trimStr text) 15).length 0
          (splitText (trimStr text) 15) := by
    simp [generate, hne]
  have hplay : generateAndPlay engine text = ⟨
      ((pre ++ bad :: post).map proc).filterMap engine,
      (pre ++ bad :: post).map proc,
      Outcome.resolvedMsg "Audio generated and played successfully".data⟩ := by
    simp [generateAndPlay, hne, hsplit, playLoop_eq]
  rw [hgen, hplay, hsplit]
  exact ⟨g1, g2, g3, rfl, rfl, rfl⟩

/-- Witness for C4 where the first segment of "a, b" fails. -/
theorem c4_witness :
    (splitText (trimStr "a, b".data) 15 = [] ++ "a,".data :: ["b".data] ∧
      engineSkip (proc "a,".data) = none) ∧
    ((generate engineSkip 22050 "a, b".data).outcome
        = Outcome.rejected "GENERATION_ERROR".data (proc "a,".data) ∧
      (generate engineSkip 22050 "a, b".data).calls
        = ([] : List (List Char)).map proc ++ [proc "a,".data] ∧
      (generate engineSkip 22050 "a, b".data).events.length
        = ([] : List (List Char)).length ∧
      (generateAndPlay engineSkip "a, b".data).outcome
        = Outcome.resolvedMsg "Audio generated and played successfully".data ∧
      (generateAndPlay engineSkip "a, b".data).enqueued
        = (([] ++ "a,".data :: ["b".data]).map proc).filterMap engineSkip ∧
      (generateAndPlay engineSkip "a, b".data).calls
        = ([] ++ "a,".data :: ["b".data]).map proc) :=
  ⟨⟨by decide, by decide⟩,
    c4_amended engineSkip 22050 "a, b".data [] "a,".data ["b".data]
      (by decide) (by simp) (by decide)⟩

/-- Claim C5: along every run of the player, the chunks written to the
output device followed by the chunks still queued are exactly the enqueued
chunks in order — so for i < j, chunk i is dequeued and written strictly
before chunk j, with no chunk skipped or reordered.  (The stream-mode
event order is the index order proved for C3.) -/
theorem c5_fifo (spc : Nat) (acts : List PAction) (s : PlayerState)
    (h : runP spc acts initPS = some s) :
    s.written ++ s.audioQueue = s.enqLog :=
  runP_fifo spc acts initPS s rfl h

/-- Witness for C5 on a concrete run: enqueue, one worker round, enqueue. -/
theorem c5_witness :
    runP 1 [PAction.enqueue [0], PAction.worker, PAction.enqueue [1]] initPS
      = some ⟨[[1]], [], [0], false, true, [[0]], [[0], [1]],
          [Ev.enq, Ev.rep (-1), Ev.enq]⟩ ∧
    (⟨[[1]], [], [0], false, true, [[0]], [[0], [1]],
        [Ev.enq, Ev.rep (-1), Ev.enq]⟩ : PlayerState).written ++
      (⟨[[1]], [], [0], false, true, [[0]], [[0], [1]],
        [Ev.enq, Ev.rep (-1), Ev.enq]⟩ : PlayerState).audioQueue
      = (⟨[[1]], [], [0], false, true, [[0]], [[0], [1]],
        [Ev.enq, Ev.rep (-1), Ev.enq]⟩ : PlayerState).enqLog := by
  have h : runP 1 [PAction.enqueue [0], PAction.worker, PAction.enqueue [1]] initPS
      = some ⟨[[1]], [], [0], false, true, [[0]], [[0], [1]],
          [Ev.enq, Ev.rep (-1), Ev.enq]⟩ := by
    simp [runP, applyAction, workerStep, tickStep, enqueueStep, processAcc,
      computePeak, initPS]
  exact ⟨h, c5_fifo 1 _ _ h⟩

/-- Claim C6, counterexample: enqueue one fully-silent 200 ms chunk
(samplesPerChunk = 1, chunk [0]), run one worker round, then one volume
tick.  The worker measures the chunk (volume 0 goes into the volumes
queue), then — queue and buffer now empty — sends the -1 idle sentinel;
the next tick still polls the pending measured volume and reports 0 AFTER
the sentinel with no new audio enqueued, contradicting the claim that no
further zero report occurs until new audio is enqueued. -/
theorem c6_counterexample :
    Option.map PlayerState.trace
        (runP 1 [PAction.enqueue [0], PAction.worker, PAction.tick] initPS)
      = some [Ev.enq, Ev.rep (-1), Ev.rep 0] := by
  simp [runP, applyAction, workerStep, tickStep, enqueueStep, processAcc,
    computePeak, initPS]

/-- Claim C6 (amended): along every stop-free run whose enqueued samples
lie in [-1,1], every reported value is the -1 idle sentinel or lies in
[0,1], and the sentinel is never reported twice without an enqueue in
between (the `sentCompletion` flag makes it one-shot until new audio is
enqueued).  However, a volume sample still pending in the volumes queue —
possibly 0 for silent audio — may be reported after the sentinel, so the
claim's "no further zero reports until new audio is enqueued" fails, see
the counterexample. -/
theorem c6_amended (spc : Nat) (acts : List PAction) (s : PlayerState)
    (hb : ∀ c, PAction.enqueue c ∈ acts → ∀ x ∈ c, |x| ≤ 1)
    (hstop : PAction.stop ∉ acts)
    (hr : runP spc acts initPS = some s) :
    (∀ e ∈ s.trace, e = Ev.enq ∨
      ∃ v, e = Ev.rep v ∧ (v = -1 ∨ (0 ≤ v ∧ v ≤ 1))) ∧
    NoDoubleSentinel s.trace := by
  have hinv : C6Inv s := runP_c6 spc acts initPS s hb hstop
    ⟨rfl, by simp [initPS], by simp [initPS], by simp [initPS], by simp [initPS]⟩ hr
  exact ⟨hinv.2.2.2.2, (chkFrom_bridge s.trace false (by rw [hinv.1]; rfl)).2⟩

/-- Witness for C6 on the concrete silent-chunk run. -/
theorem c6_witness :
    ((∀ c, PAction.enqueue c ∈
        ([PAction.enqueue [0], PAction.worker, PAction.tick] : List PAction) →
        ∀ x ∈ c, |x| ≤ 1) ∧
      PAction.stop ∉
        ([PAction.enqueue [0], PAction.worker, PAction.tick] : List PAction) ∧
      runP 1 [PAction.enqueue [0], PAction.worker, PAction.tick] initPS
        = some ⟨[], [], [], true, true, [[0]], [[0]],
            [Ev.enq, Ev.rep (-1), Ev.rep 0]⟩) ∧
    ((∀ e ∈ (⟨[], [], [], true, true, [[0]], [[0]],
          [Ev.enq, Ev.rep (-1), Ev.rep 0]⟩ : PlayerState).trace,
        e = Ev.enq ∨ ∃ v, e = Ev.rep v ∧ (v = -1 ∨ (0 ≤ v ∧ v ≤ 1))) ∧
      NoDoubleSentinel (⟨[], [], [], true, true, [[0]], [[0]],
          [Ev.enq, Ev.rep (-1), Ev.rep 0]⟩ : PlayerState).trace) := by
  have hb : ∀ c, PAction.enqueue c ∈
      ([PAction.enqueue [0], PAction.worker, PAction.tick] : List PAction) →
      ∀ x ∈ c, |x| ≤ 1 := by
    intro c hc
    simp only [List.mem_cons, List.not_mem_nil, or_false] at hc
    rcases hc with hc | hc | hc
    · injection hc with h1
      subst h1
      intro x hx
      rw [List.mem_singleton] at hx
      subst hx
      decide
    · exact PAction.noConfusion hc
    · exact PAction.noConfusion hc
  have hr : runP 1 [PAction.enqueue [0], PAction.worker, PAction.tick] initPS
      = some ⟨[], [], [], true, true, [[0]], [[0]],
          [Ev.enq, Ev.rep (-1), Ev.rep 0]⟩ := by
    simp [runP, applyAction, workerStep, tickStep, enqueueStep, processAcc,
      computePeak, initPS]
  exact ⟨⟨hb, by decide, hr⟩, c6_amended 1 _ _ hb (by decide) hr⟩

/-- Claim C7: for every input that trims to the empty string (empty or
whitespace-only), `generate` rejects immediately with EMPTY_TEXT: the
synthesis engine is never called (empty call list) and no chunk event is
emitted (empty event list).  (`generate` never touches the audio player,
so no volume event can originate from such a call either.) -/
theorem c7_empty_reject (engine : List Char → Option (List ℚ)) (sr : ℚ)
    (text : List Char) (h : trimStr text = []) :
    generate engine sr text
      = ⟨[], [], Outcome.rejected "EMPTY_TEXT".data "Input text is empty".data⟩ := by
  simp [generate, h]

/-- Witness for C7 on whitespace-only input. -/
theorem c7_witness :
    trimStr " \n ".data = [] ∧
    generate engineOne 22050 " \n ".data
      = ⟨[], [], Outcome.rejected "EMPTY_TEXT".data "Input text is empty".data⟩ :=
  ⟨by decide, c7_empty_reject engineOne 22050 " \n ".data (by decide)⟩

/-- Claim C8: when every sample of the final segment is below the silence
threshold in absolute value (fully silent, e.g. all-zero), the
trailing-silence trimming step leaves the chunk's sample count unchanged —
no crash and no empty chunk — in both the single-pass variant
(threshold 0.01, SherpaOnnxOfflineTts.swift) and the two-pass aggressive
variant (threshold 0.002, part_003), since the backward scan finds no
significant sample and the buffer re-extension is capped at the original
count. -/
theorem c8_silent_trim (sr : ℚ) (samples : List ℚ)
    (h : ∀ s ∈ samples, |s| ≤ mkRat 1 500) :
    trimCount sr samples = samples.length ∧
    trim3Count sr true samples = samples.length := by
  have h100 : ∀ s ∈ samples, |s| ≤ mkRat 1 100 :=
    fun s hs => le_trans (h s hs) (by decide)
  have l1 : lastExceeding (mkRat 1 100) samples = none :=
    lastExceeding_none _ _ h100
  have l2 : lastExceeding (mkRat 1 500) samples = none :=
    lastExceeding_none _ _ h
  constructor
  · unfold trimCount
    rw [l1]
    dsimp only
    omega
  · unfold trim3Count
    rw [l2]
    dsimp only
    simp only [Option.isSome_none, Bool.and_false, Bool.false_eq_true, if_false]
    omega

/-- Witness for C8 on a concrete silent chunk. -/
theorem c8_witness :
    (∀ s ∈ [(0:ℚ), mkRat 1 1000], |s| ≤ mkRat 1 500) ∧
    (trimCount 22050 [(0:ℚ), mkRat 1 1000] = [(0:ℚ), mkRat 1 1000].length ∧
      trim3Count 22050 true [(0:ℚ), mkRat 1 1000]
        = [(0:ℚ), mkRat 1 1000].length) :=
  ⟨by decide, c8_silent_trim 22050 [(0:ℚ), mkRat 1 1000] (by decide)⟩

/-- Claim C9, counterexample: calling `stopPlayer` while two chunks remain
queued leaves both chunks in the audio queue — the queue is NOT emptied
(the code clears `accumulationBuffer` and `volumesQueue` but never
`audioQueue`), contradicting the claim that the playback queue is emptied
of all pending chunks. -/
theorem c9_counterexample :
    Option.map PlayerState.audioQueue
        (runP 1 [PAction.enqueue [1], PAction.enqueue [2], PAction.stop] initPS)
      = some [[1], [2]] ∧
    ([[(1:ℚ)], [2]] : List (List ℚ)) ≠ [] := by
  exact ⟨by decide, by decide⟩

/-- Claim C9 (amended): `stopPlayer` (called by `deinitialize`) stops the
playback worker and the volume timer (afterwards neither a worker step nor
a tick is enabled, so no further device write occurs), clears the
accumulation buffer and the pending volume samples, and posts exactly one
final -1 idle volume event — but it does NOT empty the audio queue: all
pending chunks remain in it (the abandoned player object is simply
dropped). -/
theorem c9_amended (s : PlayerState) :
    (stopPlayer s).running = false ∧
    (stopPlayer s).audioQueue = s.audioQueue ∧
    (stopPlayer s).accBuf = [] ∧
    (stopPlayer s).volumes = [] ∧
    (stopPlayer s).trace = s.trace ++ [Ev.rep (-1)] ∧
    (∀ spc, applyAction spc PAction.worker (stopPlayer s) = none ∧
      applyAction spc PAction.tick (stopPlayer s) = none) := by
  refine ⟨rfl, rfl, rfl, rfl, rfl, ?_⟩
  intro spc
  constructor
  · simp [applyAction, workerStep, stopPlayer]
  · simp [applyAction, tickStep, stopPlayer]

/-- Claim C10: for every input text and every maxWords ≥ 1, the
`splitText` while loop terminates within `words.length` iterations: the
result is insensitive to any fuel of at least the word count, because each
iteration advances `currentIndex` by at least 1 — the sentence produced in
the period/comma branch contains the punctuation character, hence at least
one word, and the forced-cut branch advances by `maxWords ≥ 1`. -/
theorem c10_termination (text : List Char) (maxWords fuel : Nat)
    (hm : 1 ≤ maxWords) (hf : (wordsOf text).length ≤ fuel) :
    splitTextGo maxWords fuel (wordsOf text) = splitText text maxWords := by
  unfold splitText
  exact splitTextGo_fuel maxWords hm (wordsOf text).length (wordsOf text)
    fuel (wordsOf text).length (le_refl _) hf (le_refl _)

/-- Witness for C10 with an oversized fuel on a concrete text. -/
theorem c10_witness :
    (1 ≤ 2 ∧ (wordsOf "one two three".data).length ≤ 100) ∧
    splitTextGo 2 100 (wordsOf "one two three".data)
      = splitText "one two three".data 2 :=
  ⟨⟨by decide, by decide⟩,
    c10_termination "one two three".data 2 100 (by decide) (by decide)⟩

end Sherpa
